import Mathlib

/-!
Verification development for the cohort-scheduling engine
(`src/bot/cogs/scheduler.py` of the Lens-Academy/lens-platform repository).

The Python module is shallowly embedded below:

* `Person` / `Group` mirror the dataclasses (fields the algorithm never
  reads, such as `timezone`, `courses` and `experience`, are omitted;
  interval endpoints are Python ints, embedded as `Int`).
* Python's `range(0, stop, step)` over the week / meeting-length grids is
  `gridPoints`.
* The global random generator is embedded as explicit oracles: one rational
  draw per person for the sort-key jitter (`sortDraws`), and per placement
  decision a pair `(r1, r2)` where `r1` models the `random.random()`
  compared against `randomness` and `r2` selects (via `% length`) the element
  that `random.choice` returns from the candidate list.  Float expressions
  are given exact rational semantics.
* The possibly non-terminating `while improved:` loop of `balance_cohorts`
  is run on explicit fuel (one unit per executed pass of the loop body).
-/

set_option maxRecDepth 100000

attribute [local semireducible] Rat.mul Rat.add Rat.sub Rat.inv

namespace Scheduler

structure Person where
  id : String
  name : String
  intervals : List (Int × Int)
  if_needed_intervals : List (Int × Int)
  deriving DecidableEq, Repr

structure Group where
  id : String
  name : String
  people : List Person
  facilitator_id : Option String
  selected_time : Option (Nat × Nat)
  deriving DecidableEq, Repr

/-- `calculate_total_available_time`: sum of interval lengths over both
`intervals` and `if_needed_intervals`. -/
def calculate_total_available_time (p : Person) : Int :=
  (p.intervals.map fun se => se.2 - se.1).sum +
    (p.if_needed_intervals.map fun se => se.2 - se.1).sum

/-- Python `range(0, stop, step)` for a positive `step`
(the grids `range(0, 7*24*60, time_increment)` and
`range(0, meeting_length, time_increment)`). -/
def gridPoints (stop step : Nat) : List Nat :=
  (List.range ((stop + step - 1) / step)).map fun j => j * step

/-- The per-person availability test used inside `is_group_valid` and
`find_cohort_time_options`: some regular interval contains `t`, or
`use_if_needed` and some if-needed interval contains `t`. -/
def is_available (p : Person) (t : Nat) (use_if_needed : Bool) : Bool :=
  (p.intervals.any fun se => decide (se.1 ≤ (t : Int) ∧ (t : Int) < se.2)) ||
    (use_if_needed &&
      p.if_needed_intervals.any fun se => decide (se.1 ≤ (t : Int) ∧ (t : Int) < se.2))

/-- The time-block search of `is_group_valid`: some block start on the weekly
grid such that every offset of the meeting is covered for every member. -/
def valid_people (ps : List Person) (meeting_length time_increment : Nat)
    (use_if_needed : Bool) : Bool :=
  (gridPoints (7 * 24 * 60) time_increment).any fun t0 =>
    (gridPoints meeting_length time_increment).all fun off =>
      ps.all fun p => is_available p (t0 + off) use_if_needed

/-- Python truthiness of the `facilitator_ids` argument (`if facilitator_ids:`):
`None` and the empty set are falsy. -/
def fidsTruthy : Option (List String) → Bool
  | none => false
  | some l => !l.isEmpty

/-- The id list carried by an optional facilitator set. -/
def fidsList : Option (List String) → List String
  | none => []
  | some l => l

/-- `len([p for p in people if p.id in facilitator_ids])`. -/
def facCount (ps : List Person) (l : List String) : Nat :=
  (ps.filter fun p => l.contains p.id).length

/-- `is_group_valid(group, meeting_length, time_increment, use_if_needed,
facilitator_ids)`: empty groups are valid; with a truthy facilitator set the
group must contain exactly one facilitator; then the week is scanned for a
valid block. -/
def is_group_valid (group : Group) (meeting_length : Nat) (time_increment : Nat)
    (use_if_needed : Bool) (facilitator_ids : Option (List String)) : Bool :=
  if group.people.length = 0 then true
  else if fidsTruthy facilitator_ids &&
      !(facCount group.people (fidsList facilitator_ids) == 1) then false
  else valid_people group.people meeting_length time_increment use_if_needed

/-- `find_cohort_time_options(people, meeting_length, time_increment,
use_if_needed)`: every valid block start on the weekly grid, in ascending
order, as `(t0, t0 + meeting_length)` pairs. -/
def find_cohort_time_options (people : List Person) (meeting_length : Nat)
    (time_increment : Nat) (use_if_needed : Bool) : List (Nat × Nat) :=
  ((gridPoints (7 * 24 * 60) time_increment).filter fun t0 =>
      (gridPoints meeting_length time_increment).all fun off =>
        people.all fun p => is_available p (t0 + off) use_if_needed).map
    fun t0 => (t0, t0 + meeting_length)

/-- Python `enumerate`, starting from index `i`. -/
def enumFrom (i : Nat) : List α → List (Nat × α)
  | [] => []
  | x :: xs => (i, x) :: enumFrom (i + 1) xs

/-- The throwaway `Group(id="test", name="test", people=test_people)` used
for validity probing. -/
def testGroup (ps : List Person) : Group :=
  ⟨"test", "test", ps, none, none⟩

/-- `new_groups[selected_index].people.append(person)`. -/
def addToGroup (g : Group) (p : Person) : Group :=
  { g with people := g.people ++ [p] }

/-- The brand-new single-person group of the non-facilitator mode. -/
def newSoloGroup (n : Nat) (p : Person) : Group :=
  ⟨"group-" ++ toString n, "Group " ++ toString (n + 1), [p], none, none⟩

/-- The new `{facilitator, person}` group of the facilitator mode. -/
def newFacGroup (n : Nat) (f p : Person) : Group :=
  ⟨"group-" ++ toString n, "Group " ++ toString (n + 1), [f, p], some f.id, none⟩

/-- The candidate groups that could accept `person`: existing groups with
room (`len < max_people`) whose members plus `person` pass the validity
checker, paired with their index (Python keeps the indices; we keep
index/group pairs, which is equivalent because the pair `(i, g)` always
satisfies `groups[i] = g`). -/
def candPairs (mlen maxp tinc : Nat) (uin : Bool) (fids : Option (List String))
    (person : Person) (groups : List Group) : List (Nat × Group) :=
  (enumFrom 0 groups).filter fun ig =>
    ig.2.people.length < maxp &&
      is_group_valid (testGroup (ig.2.people ++ [person])) mlen tinc uin fids

/-- The choice of a candidate:
`if randomness == 0 or random.random() > randomness:` take the first,
`else` `random.choice(valid_group_indices)` — the uniform choice is
embedded as indexing by an oracle natural modulo the length. -/
def pickPair (z : ℚ) (d : ℚ × Nat) : List (Nat × Group) → Nat × Group
  | [] => (0, testGroup [])
  | c :: cs =>
    if z = 0 ∨ z < d.1 then c else (c :: cs).getD (d.2 % (c :: cs).length) c

/-- One step of the non-facilitator greedy loop: place the person in a chosen
valid existing group, or create a new single-person group. -/
def greedyStepNF (z : ℚ) (mlen maxp tinc : Nat) (uin : Bool)
    (groups : List Group) (pd : Person × ℚ × Nat) : List Group :=
  match candPairs mlen maxp tinc uin none pd.1 groups with
  | [] => groups ++ [newSoloGroup groups.length pd.1]
  | c :: cs =>
    let sel := pickPair z pd.2 (c :: cs)
    groups.set sel.1 (addToGroup sel.2 pd.1)

/-- `facilitator_max_cohorts.get(facilitator.id, 1) if facilitator_max_cohorts
else 1` (an absent or empty dict gives the default cap of 1). -/
def maxCohortsFor (fmc : Option (List (String × Nat))) (fid : String) : Nat :=
  match fmc with
  | none => 1
  | some m => (m.lookup fid).getD 1

/-- The facilitator scan that starts a new group: iterate facilitators in
order, skip those at their cap, and accept the first whose pairing with the
person passes the validity checker. -/
def tryNewFacGroup (mlen tinc : Nat) (uin : Bool) (fl : List String)
    (fmc : Option (List (String × Nat))) (asg : String → Nat) (person : Person) :
    List Person → Option Person
  | [] => none
  | f :: fs =>
    if asg f.id < maxCohortsFor fmc f.id &&
        is_group_valid (testGroup [f, person]) mlen tinc uin (some fl) then some f
    else tryNewFacGroup mlen tinc uin fl fmc asg person fs

/-- One step of the facilitator-mode greedy loop, acting on the pair of the
group list and the per-facilitator assignment counters. -/
def greedyStepF (z : ℚ) (mlen maxp tinc : Nat) (uin : Bool) (fl : List String)
    (fmc : Option (List (String × Nat))) (facilitators : List Person)
    (st : List Group × (String → Nat)) (pd : Person × ℚ × Nat) :
    List Group × (String → Nat) :=
  match candPairs mlen maxp tinc uin (some fl) pd.1 st.1 with
  | c :: cs =>
    let sel := pickPair z pd.2 (c :: cs)
    (st.1.set sel.1 (addToGroup sel.2 pd.1), st.2)
  | [] =>
    match tryNewFacGroup mlen tinc uin fl fmc st.2 pd.1 facilitators with
    | none => st
    | some f =>
      (st.1 ++ [newFacGroup st.1.length f pd.1],
        fun x => if x = f.id then st.2 f.id + 1 else st.2 x)

/-- The multiplicative sort-key jitter
`1.0 - randomness*0.1 + random.random()*randomness*0.2`
(exact rational semantics of the float expression). -/
def noiseFactor (z r : ℚ) : ℚ :=
  1 - z * (1 / 10) + r * z * (1 / 5)

/-- Ordering of key/person pairs by the sort key. -/
def keyLE (a b : ℚ × Person) : Prop :=
  a.1 ≤ b.1

instance : DecidableRel keyLE :=
  fun a b => inferInstanceAs (Decidable (a.1 ≤ b.1))

instance : IsTotal (ℚ × Person) keyLE :=
  ⟨fun a b => le_total a.1 b.1⟩

instance : IsTrans (ℚ × Person) keyLE :=
  ⟨fun _ _ _ => le_trans⟩

/-- `sorted(people, key=lambda p: total_available_time(p) * noise)`: the key
is computed once per element (with one fresh draw each) and the sort is
stable, as Python's `sorted`; a stable sort under a total preorder is unique,
and `List.insertionSort` is stable, so it returns exactly Python's order. -/
def sortByNoisyKey (z : ℚ) (rs : Nat → ℚ) (people : List Person) : List Person :=
  (((enumFrom 0 people).map fun ip =>
      ((calculate_total_available_time ip.2 : ℚ) * noiseFactor z (rs ip.1), ip.2)).insertionSort
    keyLE).map Prod.snd

/-- Attach one placement-decision draw to each person of the processing
order. -/
def attachDraws (ds : Nat → ℚ × Nat) (order : List Person) : List (Person × ℚ × Nat) :=
  (enumFrom 0 order).map fun ip => (ip.2, ds ip.1)

/-- `run_greedy_iteration(people, meeting_length, min_people, max_people,
time_increment, randomness, facilitator_ids, facilitator_max_cohorts,
use_if_needed)`, with the random draws supplied by the `rs`/`ds` oracles.
Mode dispatch is `if facilitator_ids and len(facilitator_ids) > 0:`. -/
def run_greedy_iteration (people : List Person) (mlen minp maxp tinc : Nat)
    (z : ℚ) (fids : Option (List String)) (fmc : Option (List (String × Nat)))
    (uin : Bool) (rs : Nat → ℚ) (ds : Nat → ℚ × Nat) : List Group :=
  if fidsTruthy fids then
    let fl := fidsList fids
    let facilitators := people.filter fun p => fl.contains p.id
    let nonfac := people.filter fun p => !fl.contains p.id
    let order := sortByNoisyKey z rs nonfac
    let st := (attachDraws ds order).foldl
      (greedyStepF z mlen maxp tinc uin fl fmc facilitators) ([], fun _ => 0)
    st.1.filter fun g => minp ≤ g.people.length
  else
    let order := sortByNoisyKey z rs people
    let groups := (attachDraws ds order).foldl (greedyStepNF z mlen maxp tinc uin) []
    groups.filter fun g => minp ≤ g.people.length

/-- `score = sum(len(g.people) for g in solution)`. -/
def totalScore (gs : List Group) : Nat :=
  (gs.map fun g => g.people.length).sum

/-- The mutable optimizer state `(best_solution, best_score, best_iteration)`. -/
structure SchedState where
  best_solution : Option (List Group)
  best_score : Int
  best_iteration : Int
  deriving DecidableEq, Repr

/-- `best_solution = None; best_score = -1; best_iteration = -1`. -/
def schedInit : SchedState :=
  ⟨none, -1, -1⟩

/-- The optimizer loop `for iteration in range(num_iterations):` with the
early exit `if best_score == len(people): break`.  The first argument is the
remaining fuel (`num_iterations - i`), the second the current value of the
loop variable; the returned `Nat` is the final value of `iteration` (so the
caller returns `iteration + 1` as `total_iterations`).  The progress callback
and the cooperative `asyncio.sleep(0)` do not affect the state and are not
modelled. -/
def schedLoopGo (solf : Nat → List Group) (npeople : Nat) :
    Nat → Nat → SchedState → SchedState × Nat
  | 0, i, st => (st, i - 1)
  | k + 1, i, st =>
    let sol := solf i
    let score : Int := totalScore sol
    if st.best_score < score then
      if score = (npeople : Int) then (⟨some sol, score, i⟩, i)
      else schedLoopGo solf npeople k (i + 1) ⟨some sol, score, i⟩
    else schedLoopGo solf npeople k (i + 1) st

/-- The post-loop time assignment
`options = find_cohort_time_options(group.people, meeting_length,
time_increment)`: the source omits the `use_if_needed` argument here, so the
finder runs with its default `use_if_needed=True`; the earliest option (if
any) becomes `selected_time`. -/
def assignTime (mlen tinc : Nat) (g : Group) : Group :=
  match find_cohort_time_options g.people mlen tinc true with
  | [] => g
  | o :: _ => { g with selected_time := some o }

/-- The solution produced by iteration `i` of the optimizer, with the
per-iteration oracles `so i` / `po i` feeding the greedy pass. -/
def iterationSolution (people : List Person) (mlen minp maxp tinc : Nat)
    (z : ℚ) (fids : Option (List String)) (fmc : Option (List (String × Nat)))
    (uin : Bool) (so : Nat → Nat → ℚ) (po : Nat → Nat → ℚ × Nat) (i : Nat) :
    List Group :=
  run_greedy_iteration people mlen minp maxp tinc z fids fmc uin (so i) (po i)

/-- `run_scheduling(people, meeting_length, min_people, max_people,
num_iterations, time_increment, randomness, facilitator_ids,
facilitator_max_cohorts, use_if_needed)`, returning
`(best_solution, best_score, best_iteration, iteration + 1)`.
`if best_solution:` is vacuous on `None` and on the empty list, and mapping
`assignTime` over an empty list is the identity, so the map is applied to
any stored solution. -/
def run_scheduling (people : List Person) (mlen minp maxp : Nat)
    (num_iterations tinc : Nat) (z : ℚ) (fids : Option (List String))
    (fmc : Option (List (String × Nat))) (uin : Bool) (so : Nat → Nat → ℚ)
    (po : Nat → Nat → ℚ × Nat) : Option (List Group) × Int × Int × Nat :=
  let solf := iterationSolution people mlen minp maxp tinc z fids fmc uin so po
  let r := schedLoopGo solf people.length num_iterations 0 schedInit
  (r.1.best_solution.map fun gs => gs.map (assignTime mlen tinc),
    r.1.best_score, r.1.best_iteration, r.2 + 1)

/-- Descending-by-size ordering of groups (ties in either direction, so that
the stable sort keeps the original order of equal sizes, as Python does). -/
def sizeGE (a b : Group) : Prop :=
  b.people.length ≤ a.people.length

instance : DecidableRel sizeGE :=
  fun a b => inferInstanceAs (Decidable (b.people.length ≤ a.people.length))

instance : IsTotal Group sizeGE :=
  ⟨fun a b => le_total b.people.length a.people.length⟩

instance : IsTrans Group sizeGE :=
  ⟨fun _ _ _ h1 h2 => le_trans h2 h1⟩

/-- `groups.sort(key=lambda g: len(g.people), reverse=True)`: stable
descending sort by size. -/
def sortGroupsDesc (gs : List Group) : List Group :=
  gs.insertionSort sizeGE

/-- The inner member scan of the balancer: find the first person of the
source members who passes the validity checker when appended to the target
members; return the source members with that person removed
(`source_group.people.pop(i)`) together with the person. -/
def findMovable (mlen tinc : Nat) (uin : Bool) (tgt : List Person) :
    List Person → Option (List Person × Person)
  | [] => none
  | p :: ps =>
    if is_group_valid (testGroup (tgt ++ [p])) mlen tinc uin none then some (ps, p)
    else
      match findMovable mlen tinc uin tgt ps with
      | none => none
      | some pr => some (p :: pr.1, pr.2)

/-- `for target_idx in range(len(groups) - 1, source_idx, -1):` — scan the
targets in descending index order; the counter `k` stands for
`target_idx - source_idx`, so the first call uses
`k = len(groups) - 1 - source_idx`. -/
def scanTargets (mlen tinc : Nat) (uin : Bool) (groups : List Group)
    (sIdx : Nat) (source : Group) : Nat → Option (List Group)
  | 0 => none
  | k + 1 =>
    let tIdx := sIdx + k + 1
    match groups[tIdx]? with
    | none => scanTargets mlen tinc uin groups sIdx source k
    | some target =>
      if source.people.length ≤ target.people.length then
        scanTargets mlen tinc uin groups sIdx source k
      else
        match findMovable mlen tinc uin target.people source.people with
        | none => scanTargets mlen tinc uin groups sIdx source k
        | some pr =>
          some ((groups.set sIdx { source with people := pr.1 }).set tIdx
            { target with people := target.people ++ [pr.2] })

/-- `for source_idx in range(len(groups)):` — the outer scan of the
balancer's move search; the first `Nat` is the remaining count of source
indices. -/
def scanSources (mlen tinc : Nat) (uin : Bool) (groups : List Group) :
    Nat → Nat → Option (List Group)
  | 0, _ => none
  | k + 1, sIdx =>
    match groups[sIdx]? with
    | none => none
    | some source =>
      match scanTargets mlen tinc uin groups sIdx source
          (groups.length - (sIdx + 1)) with
      | some gs => some gs
      | none => scanSources mlen tinc uin groups k (sIdx + 1)

/-- The `while improved:` loop of `balance_cohorts`, on fuel: sort descending
by size, stop when `largest - smallest <= 1`, otherwise perform the first
valid move found (or stop when none exists) and repeat. -/
def balanceGo (mlen tinc : Nat) (uin : Bool) :
    Nat → List Group → Nat → List Group × Nat
  | 0, gs, c => (gs, c)
  | fuel + 1, gs, c =>
    let sorted := sortGroupsDesc gs
    match sorted with
    | [] => (sorted, c)
    | hd :: _ =>
      let lastSize := (sorted.getLast?.getD hd).people.length
      if (hd.people.length : Int) - (lastSize : Int) ≤ 1 then (sorted, c)
      else
        match scanSources mlen tinc uin sorted sorted.length 0 with
        | none => (sorted, c)
        | some gs2 => balanceGo mlen tinc uin fuel gs2 (c + 1)

/-- `balance_cohorts(groups, meeting_length, time_increment, use_if_needed)`:
the Python function mutates the list in place and returns `move_count`; the
embedding returns the final list together with the count.  The `while` loop
runs on explicit fuel. -/
def balance_cohorts (groups : List Group) (mlen tinc : Nat) (uin : Bool)
    (fuel : Nat) : List Group × Nat :=
  if groups.length < 2 then (groups, 0)
  else balanceGo mlen tinc uin fuel groups 0

/-- All members of a list of groups, in order
(`[p for g in groups for p in g.people]`). -/
def allMembers : List Group → List Person
  | [] => []
  | g :: gs => g.people ++ allMembers gs

/-- Number of occurrences of the id `s` in a list of persons. -/
def idCount (s : String) (ps : List Person) : Nat :=
  (ps.filter fun p => p.id == s).length

/-- Spec-side availability (for the refinement claim about `is_group_valid`):
"some `(s,e)` in their `intervals` with `s <= t < e`, or `use_if_needed` and
some such `(s,e)` in their `if_needed_intervals`". -/
def available_claim (p : Person) (t : Nat) (uin : Bool) : Prop :=
  (∃ se ∈ p.intervals, se.1 ≤ (t : Int) ∧ (t : Int) < se.2) ∨
    (uin = true ∧ ∃ se ∈ p.if_needed_intervals, se.1 ≤ (t : Int) ∧ (t : Int) < se.2)

/-- The reference definition of the validity checker exactly as the claim
states it: the group is empty, or else (when `facilitator_ids` is
*provided*) it contains exactly one facilitator and there is a grid block
start `t0 = j * time_increment` below 10080 at which every member is
available at every offset `k * time_increment < meeting_length`. -/
def is_group_valid_claim (g : Group) (mlen tinc : Nat) (uin : Bool)
    (fids : Option (List String)) : Prop :=
  g.people = [] ∨
    ((fids.isSome → facCount g.people (fidsList fids) = 1) ∧
      ∃ j : Nat, j * tinc < 7 * 24 * 60 ∧ ∀ k : Nat, k * tinc < mlen →
        ∀ p ∈ g.people, available_claim p (j * tinc + k * tinc) uin)

/-- The claim amended as the counterexample forces: the exactly-one-facilitator
requirement applies only when `facilitator_ids` is provided *and non-empty*
(a provided-but-empty set is falsy in Python and is ignored by the code). -/
def is_group_valid_amended (g : Group) (mlen tinc : Nat) (uin : Bool)
    (fids : Option (List String)) : Prop :=
  g.people = [] ∨
    ((fidsTruthy fids = true → facCount g.people (fidsList fids) = 1) ∧
      ∃ j : Nat, j * tinc < 7 * 24 * 60 ∧ ∀ k : Nat, k * tinc < mlen →
        ∀ p ∈ g.people, available_claim p (j * tinc + k * tinc) uin)

/-- Example person with one regular interval covering Monday 00:00-01:00. -/
def exA : Person := ⟨"a", "A", [(0, 60)], []⟩

/-- Second example person with the same availability as `exA`. -/
def exB : Person := ⟨"b", "B", [(0, 60)], []⟩

/-- Example person available only at minutes 5-10, which contains no grid
point of the 30-minute grid. -/
def exBad : Person := ⟨"x", "X", [(5, 10)], []⟩

/-- Example person with no regular availability and one if-needed hour. -/
def exIfN : Person := ⟨"n", "N", [], [(0, 60)]⟩

/-- Example facilitator available Monday 00:00-01:00. -/
def exF : Person := ⟨"f", "F", [(0, 60)], []⟩

/-- Facilitator available the first hour (spans both half-hour slots used in
the balancing counterexample). -/
def exF1 : Person := ⟨"f1", "F1", [(0, 60)], []⟩

/-- Facilitator available only the second half-hour slot. -/
def exF2 : Person := ⟨"f2", "F2", [(30, 60)], []⟩

/-- Person available only the first half-hour slot. -/
def exA1 : Person := ⟨"a1", "A1", [(0, 30)], []⟩

/-- Person available only the first half-hour slot. -/
def exB1 : Person := ⟨"b1", "B1", [(0, 30)], []⟩

/-- Person available only the first half-hour slot. -/
def exC1 : Person := ⟨"c1", "C1", [(0, 30)], []⟩

/-- Person available only the second half-hour slot. -/
def exD1 : Person := ⟨"d1", "D1", [(30, 60)], []⟩

/-- Trivial sort-jitter oracle (each draw is 0). -/
def zeroSortOracle : Nat → Nat → ℚ := fun _ _ => 0

/-- Trivial placement-draw oracle (each draw is `(0, 0)`, i.e. the
first-candidate branch). -/
def zeroPickOracle : Nat → Nat → ℚ × Nat := fun _ _ => (0, 0)

theorem lt_ceilDiv_iff {B s j : Nat} (hs : 0 < s) :
    j < (B + s - 1) / s ↔ j * s < B := by
  rw [Nat.lt_iff_add_one_le, Nat.le_div_iff_mul_le hs, add_one_mul]
  omega

theorem mem_gridPoints {B s t : Nat} (hs : 0 < s) :
    t ∈ gridPoints B s ↔ ∃ j : Nat, t = j * s ∧ j * s < B := by
  simp only [gridPoints, List.mem_map, List.mem_range]
  constructor
  · rintro ⟨j, hj, rfl⟩
    exact ⟨j, rfl, (lt_ceilDiv_iff hs).mp hj⟩
  · rintro ⟨j, rfl, hj⟩
    exact ⟨j, (lt_ceilDiv_iff hs).mpr hj, rfl⟩

theorem is_available_iff {p : Person} {t : Nat} {uin : Bool} :
    is_available p t uin = true ↔ available_claim p t uin := by
  simp [is_available, available_claim, List.any_eq_true]

theorem valid_people_iff {ps : List Person} {mlen tinc : Nat} (ht : 0 < tinc)
    {uin : Bool} :
    valid_people ps mlen tinc uin = true ↔
      ∃ j : Nat, j * tinc < 7 * 24 * 60 ∧ ∀ k : Nat, k * tinc < mlen →
        ∀ p ∈ ps, available_claim p (j * tinc + k * tinc) uin := by
  simp only [valid_people, List.any_eq_true, List.all_eq_true]
  constructor
  · rintro ⟨t0, ht0, hall⟩
    obtain ⟨j, rfl, hj⟩ := (mem_gridPoints ht).mp ht0
    refine ⟨j, hj, fun k hk p hp => ?_⟩
    have hoff : k * tinc ∈ gridPoints mlen tinc := (mem_gridPoints ht).mpr ⟨k, rfl, hk⟩
    exact is_available_iff.mp (hall (k * tinc) hoff p hp)
  · rintro ⟨j, hj, hall⟩
    refine ⟨j * tinc, (mem_gridPoints ht).mpr ⟨j, rfl, hj⟩, fun off hoff p hp => ?_⟩
    obtain ⟨k, rfl, hk⟩ := (mem_gridPoints ht).mp hoff
    exact is_available_iff.mpr (hall k hk p hp)

theorem igv_iff {g : Group} {mlen tinc : Nat} {uin : Bool}
    {fids : Option (List String)} :
    is_group_valid g mlen tinc uin fids = true ↔
      (g.people = [] ∨
        ((fidsTruthy fids = true → facCount g.people (fidsList fids) = 1) ∧
          valid_people g.people mlen tinc uin = true)) := by
  unfold is_group_valid
  by_cases h1 : g.people.length = 0
  · simp [h1, List.length_eq_zero.mp h1]
  · rw [if_neg h1]
    have hne : ¬ g.people = [] := fun h => h1 (by simp [h])
    by_cases h2 : (fidsTruthy fids && !(facCount g.people (fidsList fids) == 1)) = true
    · rw [if_pos h2]
      simp only [Bool.and_eq_true, Bool.not_eq_true', beq_eq_false_iff_ne] at h2
      simp only [Bool.false_eq_true, false_iff]
      rintro (h | ⟨hf, -⟩)
      · exact hne h
      · exact h2.2 (hf h2.1)
    · rw [if_neg h2]
      simp only [Bool.and_eq_true, Bool.not_eq_true', beq_eq_false_iff_ne, not_and,
        not_not] at h2
      constructor
      · intro hv
        exact Or.inr ⟨h2, hv⟩
      · rintro (h | ⟨-, hv⟩)
        · exact absurd h hne
        · exact hv

/-- C2 (counterexample): with a provided-but-empty facilitator set, Python's
truthiness test `if facilitator_ids:` skips the facilitator constraint, so
`is_group_valid` returns `True` on a one-person group, while the claim's
reference definition — which applies the exactly-one-facilitator test
whenever the set is provided — is false there. -/
theorem C2_counterexample :
    is_group_valid (testGroup [exA]) 30 30 true (some []) = true ∧
      ¬ is_group_valid_claim (testGroup [exA]) 30 30 true (some []) := by
  refine ⟨by decide, ?_⟩
  rintro (h | ⟨hf, -⟩)
  · exact absurd h (by decide)
  · exact absurd (hf (by decide)) (by decide)

/-- C2 (amended): `is_group_valid(group, meeting_length, time_increment,
use_if_needed, facilitator_ids)` returns `True` iff the group is empty, or
else (when `facilitator_ids` is provided *and non-empty*) the group contains
exactly one member whose id is in `facilitator_ids` and, in all cases, some
block start `t0 = j * time_increment < 10080` has every member available at
every offset `k * time_increment < meeting_length`. -/
theorem C2_amended (g : Group) (mlen tinc : Nat) (uin : Bool)
    (fids : Option (List String)) (ht : 0 < tinc) :
    is_group_valid g mlen tinc uin fids = true ↔
      is_group_valid_amended g mlen tinc uin fids := by
  rw [igv_iff]
  unfold is_group_valid_amended
  constructor
  · rintro (h | ⟨hf, hv⟩)
    · exact Or.inl h
    · exact Or.inr ⟨hf, (valid_people_iff ht).mp hv⟩
  · rintro (h | ⟨hf, hv⟩)
    · exact Or.inl h
    · exact Or.inr ⟨hf, (valid_people_iff ht).mpr hv⟩

/-- C2 (witness): the amended equivalence instantiated at a concrete group
and configuration. -/
theorem C2_witness :
    0 < 30 ∧ (is_group_valid (testGroup [exA]) 30 30 true none = true ↔
      is_group_valid_amended (testGroup [exA]) 30 30 true none) :=
  ⟨by decide, C2_amended (testGroup [exA]) 30 30 true none (by decide)⟩

/-- C1 (counterexample): with `min_people = 1`, a person that no group can
accept is put in a brand-new single-person group *without* a validity check;
here the person's availability (minutes 5-10) contains no 30-minute grid
point, so the returned group fails `is_group_valid` under the very
configuration that produced it. -/
theorem C1_counterexample :
    (run_scheduling [exBad] 30 1 8 1 30 0 none none true zeroSortOracle
        zeroPickOracle).1 =
      some [⟨"group-0", "Group 1", [exBad], none, none⟩] ∧
      is_group_valid ⟨"group-0", "Group 1", [exBad], none, none⟩ 30 30 true none =
        false := by
  decide

/-- C3 (code bug): `run_scheduling` assigns `selected_time` by calling
`find_cohort_time_options(group.people, meeting_length, time_increment)`
*without* the run's `use_if_needed` argument, so the finder runs with its
default `use_if_needed=True`.  In a `use_if_needed=False` run the group
below gets `selected_time = (0, 30)` even though the Time-Option Finder
under the run's configuration returns no option at all (the claim would
require `selected_time = None`). -/
theorem C3_code_bug :
    (run_scheduling [exIfN] 30 1 8 1 30 0 none none false zeroSortOracle
        zeroPickOracle).1 =
      some [⟨"group-0", "Group 1", [exIfN], none, some (0, 30)⟩] ∧
      find_cohort_time_options [exIfN] 30 30 false = [] := by
  decide

theorem enumFrom_mem {α : Type _} {l : List α} :
    ∀ {i : Nat} {c : Nat × α}, c ∈ enumFrom i l →
      i ≤ c.1 ∧ l[c.1 - i]? = some c.2 := by
  induction l with
  | nil => intro i c h; cases h
  | cons x xs ih =>
    intro i c h
    cases h with
    | head => simp
    | tail _ h =>
      obtain ⟨h1, h2⟩ := ih h
      refine ⟨by omega, ?_⟩
      have hc : c.1 - i = (c.1 - (i + 1)) + 1 := by omega
      rw [hc]
      simpa using h2

theorem candPairs_mem {mlen maxp tinc : Nat} {uin : Bool}
    {fo : Option (List String)} {person : Person} {groups : List Group}
    {c : Nat × Group} (h : c ∈ candPairs mlen maxp tinc uin fo person groups) :
    groups[c.1]? = some c.2 ∧ c.2.people.length < maxp ∧
      is_group_valid (testGroup (c.2.people ++ [person])) mlen tinc uin fo = true := by
  unfold candPairs at h
  obtain ⟨hm, hp⟩ := List.mem_filter.mp h
  obtain ⟨-, hg⟩ := enumFrom_mem hm
  rw [Bool.and_eq_true] at hp
  exact ⟨by simpa using hg, by simpa using hp.1, hp.2⟩

theorem pickPair_mem (z : ℚ) (d : ℚ × Nat) (c : Nat × Group)
    (cs : List (Nat × Group)) : pickPair z d (c :: cs) ∈ c :: cs := by
  simp only [pickPair]
  split
  · exact List.mem_cons_self ..
  · have hlt : d.2 % (c :: cs).length < (c :: cs).length :=
      Nat.mod_lt _ (by simp)
    rw [List.getD_eq_getElem?_getD, List.getElem?_eq_getElem hlt]
    simp only [Option.getD_some]
    exact List.getElem_mem ..

theorem allMembers_append (xs ys : List Group) :
    allMembers (xs ++ ys) = allMembers xs ++ allMembers ys := by
  induction xs with
  | nil => rfl
  | cons g gs ih => simp [allMembers, ih]

theorem allMembers_set {gs : List Group} :
    ∀ {i : Nat} {x a : Group}, gs[i]? = some x →
      (allMembers (gs.set i a) : Multiset Person) + (x.people : Multiset Person) =
        (allMembers gs : Multiset Person) + (a.people : Multiset Person) := by
  induction gs with
  | nil => intro i x a h; simp at h
  | cons g gs ih =>
    intro i x a h
    cases i with
    | zero =>
      rw [List.getElem?_cons_zero, Option.some_inj] at h
      subst h
      rw [List.set_cons_zero]
      simp only [allMembers]
      rw [← Multiset.coe_add, ← Multiset.coe_add]
      abel
    | succ n =>
      rw [List.getElem?_cons_succ] at h
      have hrec := ih (a := a) h
      rw [List.set_cons_succ]
      simp only [allMembers]
      rw [← Multiset.coe_add, ← Multiset.coe_add]
      push_cast at hrec ⊢
      rw [add_assoc, add_assoc, hrec]

theorem allMembers_perm {gs gs' : List Group} (h : List.Perm gs gs') :
    List.Perm (allMembers gs) (allMembers gs') := by
  induction h with
  | nil => exact List.Perm.refl _
  | cons x _ ih => exact ih.append_left x.people
  | swap x y l =>
    simp only [allMembers]
    rw [← List.append_assoc, ← List.append_assoc]
    exact List.perm_append_comm.append_right _
  | trans _ _ ih1 ih2 => exact ih1.trans ih2

theorem allMembers_sublist {gs gs' : List Group} (h : List.Sublist gs gs') :
    List.Sublist (allMembers gs) (allMembers gs') := by
  induction h with
  | slnil => exact List.Sublist.refl _
  | cons g _ ih => exact ih.trans (List.sublist_append_right _ _)
  | cons₂ g _ ih => exact ih.append_left _

theorem totalScore_eq (gs : List Group) :
    totalScore gs = (allMembers gs).length := by
  induction gs with
  | nil => rfl
  | cons g gs ih =>
    simp only [totalScore, List.map_cons, List.sum_cons, allMembers,
      List.length_append]
    exact congrArg (g.people.length + ·) ih

theorem idCount_append (s : String) (xs ys : List Person) :
    idCount s (xs ++ ys) = idCount s xs + idCount s ys := by
  simp [idCount, List.filter_append]

theorem idCount_le_of_sublist {s : String} {xs ys : List Person}
    (h : List.Sublist xs ys) : idCount s xs ≤ idCount s ys :=
  List.Sublist.length_le (h.filter _)

theorem valid_people_sublist {ps' ps : List Person} {mlen tinc : Nat}
    {uin : Bool} (hsub : List.Sublist ps' ps)
    (h : valid_people ps mlen tinc uin = true) :
    valid_people ps' mlen tinc uin = true := by
  simp only [valid_people, List.any_eq_true, List.all_eq_true] at h ⊢
  obtain ⟨t0, ht0, hall⟩ := h
  exact ⟨t0, ht0, fun off hoff p hp => hall off hoff p (hsub.subset hp)⟩

theorem igv_people_eq {g g' : Group} (h : g.people = g'.people)
    (mlen tinc : Nat) (uin : Bool) (fo : Option (List String)) :
    is_group_valid g mlen tinc uin fo = is_group_valid g' mlen tinc uin fo := by
  unfold is_group_valid
  rw [h]

theorem igv_transfer {g g' : Group} {mlen tinc : Nat} {uin : Bool}
    {fo : Option (List String)} (h : g.people = g'.people)
    (hv : is_group_valid g' mlen tinc uin fo = true) :
    is_group_valid g mlen tinc uin fo = true := by
  rw [igv_people_eq h mlen tinc uin fo]
  exact hv

theorem igv_falsy {g : Group} {mlen tinc : Nat} {uin : Bool}
    {fo : Option (List String)} (h : fidsTruthy fo = false) :
    is_group_valid g mlen tinc uin fo = is_group_valid g mlen tinc uin none := by
  unfold is_group_valid
  rw [h]
  simp only [fidsTruthy, Bool.false_and]

theorem fids_eq_of_truthy {fo : Option (List String)}
    (h : fidsTruthy fo = true) : fo = some (fidsList fo) := by
  cases fo with
  | none => cases h
  | some l => rfl

theorem fidsList_ne_nil_of_truthy {fo : Option (List String)}
    (h : fidsTruthy fo = true) : fidsList fo ≠ [] := by
  cases fo with
  | none => cases h
  | some l =>
    simp only [fidsTruthy, Bool.not_eq_true', List.isEmpty_eq_false] at h
    simpa [fidsList] using h

theorem igv_elim {g : Group} {mlen tinc : Nat} {uin : Bool}
    {fo : Option (List String)} (h : is_group_valid g mlen tinc uin fo = true)
    (hne : g.people ≠ []) :
    (fidsTruthy fo = true → facCount g.people (fidsList fo) = 1) ∧
      valid_people g.people mlen tinc uin = true := by
  rcases igv_iff.mp h with h' | h'
  · exact absurd h' hne
  · exact h'

theorem igv_intro {g : Group} {mlen tinc : Nat} {uin : Bool}
    {fo : Option (List String)}
    (h : g.people = [] ∨
      ((fidsTruthy fo = true → facCount g.people (fidsList fo) = 1) ∧
        valid_people g.people mlen tinc uin = true)) :
    is_group_valid g mlen tinc uin fo = true :=
  igv_iff.mpr h

theorem foldl_preserve {σ α : Type _} {step : σ → α → σ} {P : σ → Prop}
    (hstep : ∀ s a, P s → P (step s a)) :
    ∀ (l : List α) (s : σ), P s → P (l.foldl step s) := by
  intro l
  induction l with
  | nil => intro s h; exact h
  | cons a l ih => intro s h; exact ih _ (hstep s a h)

theorem greedyStepNF_forall {z : ℚ} {mlen maxp tinc : Nat} {uin : Bool}
    {Q : Group → Prop} (hnew : ∀ n p, Q (newSoloGroup n p))
    (hadd : ∀ (g : Group) (p : Person), g.people.length < maxp →
      is_group_valid (testGroup (g.people ++ [p])) mlen tinc uin none = true →
      Q (addToGroup g p))
    (gs : List Group) (pd : Person × ℚ × Nat) (h : ∀ g ∈ gs, Q g) :
    ∀ g ∈ greedyStepNF z mlen maxp tinc uin gs pd, Q g := by
  intro g hg
  rw [greedyStepNF] at hg
  rcases hcand : candPairs mlen maxp tinc uin none pd.1 gs with - | ⟨c, cs⟩
  · rw [hcand] at hg
    rcases List.mem_append.mp hg with hg | hg
    · exact h g hg
    · rw [List.mem_singleton] at hg
      subst hg
      exact hnew ..
  · rw [hcand] at hg
    dsimp only at hg
    rcases List.mem_or_eq_of_mem_set hg with hg | rfl
    · exact h g hg
    · have hsub : ∀ x ∈ c :: cs, x ∈ candPairs mlen maxp tinc uin none pd.1 gs :=
        fun x hx => by rw [hcand]; exact hx
      obtain ⟨-, hlt, hv⟩ := candPairs_mem (hsub _ (pickPair_mem z pd.2 c cs))
      exact hadd _ _ hlt hv

theorem tryNewFacGroup_sound {mlen tinc : Nat} {uin : Bool} {fl : List String}
    {fmc : Option (List (String × Nat))} {asg : String → Nat} {person : Person} :
    ∀ {fs : List Person} {f : Person},
      tryNewFacGroup mlen tinc uin fl fmc asg person fs = some f →
      is_group_valid (testGroup [f, person]) mlen tinc uin (some fl) = true := by
  intro fs
  induction fs with
  | nil => intro f h; cases h
  | cons x xs ih =>
    intro f h
    rw [tryNewFacGroup] at h
    split at h
    · rw [Option.some_inj] at h
      subst h
      rename_i hc
      exact (Bool.and_eq_true _ _ |>.mp hc).2
    · exact ih h

theorem greedyStepF_forall {z : ℚ} {mlen maxp tinc : Nat} {uin : Bool}
    {fl : List String} {fmc : Option (List (String × Nat))}
    {facilitators : List Person} {Q : Group → Prop}
    (hnew : ∀ n (f p : Person),
      is_group_valid (testGroup [f, p]) mlen tinc uin (some fl) = true →
      Q (newFacGroup n f p))
    (hadd : ∀ (g : Group) (p : Person), g.people.length < maxp →
      is_group_valid (testGroup (g.people ++ [p])) mlen tinc uin (some fl) = true →
      Q (addToGroup g p))
    (st : List Group × (String → Nat)) (pd : Person × ℚ × Nat)
    (h : ∀ g ∈ st.1, Q g) :
    ∀ g ∈ (greedyStepF z mlen maxp tinc uin fl fmc facilitators st pd).1, Q g := by
  intro g hg
  rw [greedyStepF] at hg
  rcases hcand : candPairs mlen maxp tinc uin (some fl) pd.1 st.1 with - | ⟨c, cs⟩
  · rw [hcand] at hg
    rcases htry : tryNewFacGroup mlen tinc uin fl fmc st.2 pd.1 facilitators with - | f
    · rw [htry] at hg
      exact h g hg
    · rw [htry] at hg
      dsimp only at hg
      rcases List.mem_append.mp hg with hg | hg
      · exact h g hg
      · rw [List.mem_singleton] at hg
        subst hg
        exact hnew _ _ _ (tryNewFacGroup_sound htry)
  · rw [hcand] at hg
    dsimp only at hg
    rcases List.mem_or_eq_of_mem_set hg with hg | rfl
    · exact h g hg
    · have hsub : ∀ x ∈ c :: cs, x ∈ candPairs mlen maxp tinc uin (some fl) pd.1 st.1 :=
        fun x hx => by rw [hcand]; exact hx
      obtain ⟨-, hlt, hv⟩ := candPairs_mem (hsub _ (pickPair_mem z pd.2 c cs))
      exact hadd _ _ hlt hv

theorem addToGroup_people (g : Group) (p : Person) :
    (addToGroup g p).people = g.people ++ [p] :=
  rfl

theorem run_greedy_forall {people : List Person} {mlen minp maxp tinc : Nat}
    {z : ℚ} {fids : Option (List String)} {fmc : Option (List (String × Nat))}
    {uin : Bool} {rs : Nat → ℚ} {ds : Nat → ℚ × Nat} {Q : Group → Prop}
    (hnfnew : fidsTruthy fids = false → ∀ n p, Q (newSoloGroup n p))
    (hnfadd : fidsTruthy fids = false → ∀ (g : Group) (p : Person),
      g.people.length < maxp →
      is_group_valid (testGroup (g.people ++ [p])) mlen tinc uin none = true →
      Q (addToGroup g p))
    (hfnew : fidsTruthy fids = true → ∀ n (f p : Person),
      is_group_valid (testGroup [f, p]) mlen tinc uin (some (fidsList fids)) = true →
      Q (newFacGroup n f p))
    (hfadd : fidsTruthy fids = true → ∀ (g : Group) (p : Person),
      g.people.length < maxp →
      is_group_valid (testGroup (g.people ++ [p])) mlen tinc uin
        (some (fidsList fids)) = true →
      Q (addToGroup g p)) :
    ∀ g ∈ run_greedy_iteration people mlen minp maxp tinc z fids fmc uin rs ds,
      Q g := by
  intro g hg
  rw [run_greedy_iteration] at hg
  by_cases hf : fidsTruthy fids = true
  · rw [if_pos hf] at hg
    dsimp only at hg
    have hg' := (List.mem_filter.mp hg).1
    refine foldl_preserve (P := fun st => ∀ g ∈ st.1, Q g)
      (fun st pd hst => greedyStepF_forall (hfnew hf) (hfadd hf) st pd hst)
      _ _ (by intro g hg; cases hg) g hg'
  · rw [Bool.not_eq_true] at hf
    rw [if_neg (by rw [hf]; exact Bool.false_ne_true)] at hg
    dsimp only at hg
    have hg' := (List.mem_filter.mp hg).1
    exact foldl_preserve (P := fun gs => ∀ g ∈ gs, Q g)
      (fun gs pd hgs => greedyStepNF_forall (hnfnew hf) (hnfadd hf) gs pd hgs)
      _ _ (by intro g hg; cases hg) g hg'

theorem assignTime_people (mlen tinc : Nat) (g : Group) :
    (assignTime mlen tinc g).people = g.people := by
  rw [assignTime]
  rcases find_cohort_time_options g.people mlen tinc true with - | ⟨o, os⟩
  · rfl
  · rfl

theorem schedLoopGo_provenance {solf : Nat → List Group} {np : Nat} :
    ∀ (k i : Nat) (st : SchedState),
      (st.best_solution = none ∨ ∃ j, st.best_solution = some (solf j)) →
      ((schedLoopGo solf np k i st).1.best_solution = none ∨
        ∃ j, (schedLoopGo solf np k i st).1.best_solution = some (solf j)) := by
  intro k
  induction k with
  | zero => intro i st h; exact h
  | succ k ih =>
    intro i st h
    simp only [schedLoopGo]
    split
    · split
      · exact Or.inr ⟨i, rfl⟩
      · exact ih _ _ (Or.inr ⟨i, rfl⟩)
    · exact ih _ _ h

theorem run_scheduling_provenance {people : List Person}
    {mlen minp maxp n tinc : Nat} {z : ℚ} {fids : Option (List String)}
    {fmc : Option (List (String × Nat))} {uin : Bool} {so : Nat → Nat → ℚ}
    {po : Nat → Nat → ℚ × Nat} {sol : List Group}
    (h : (run_scheduling people mlen minp maxp n tinc z fids fmc uin so po).1 =
      some sol) :
    ∃ j, sol =
      (iterationSolution people mlen minp maxp tinc z fids fmc uin so po j).map
        (assignTime mlen tinc) := by
  rw [run_scheduling] at h
  rcases schedLoopGo_provenance n 0 schedInit (Or.inl rfl) with hn | ⟨j, hj⟩
  · rw [hn] at h
    cases h
  · rw [hj] at h
    exact ⟨j, by simpa using h.symm⟩

/-- C1 (amended): every group with at least two members in the
`best_solution` returned by `run_scheduling` (before balancing) passes
`is_group_valid` under the same `meeting_length`, `time_increment`,
`use_if_needed` and `facilitator_ids` used to produce it.  (Single-member
groups — returnable only when `min_people ≤ 1` — are created without a
validity check and may fail it.) -/
theorem C1_amended (people : List Person) (mlen minp maxp n tinc : Nat)
    (z : ℚ) (fids : Option (List String)) (fmc : Option (List (String × Nat)))
    (uin : Bool) (so : Nat → Nat → ℚ) (po : Nat → Nat → ℚ × Nat)
    (sol : List Group)
    (h : (run_scheduling people mlen minp maxp n tinc z fids fmc uin so po).1 =
      some sol) :
    ∀ g ∈ sol, 2 ≤ g.people.length → is_group_valid g mlen tinc uin fids = true := by
  obtain ⟨j, rfl⟩ := run_scheduling_provenance h
  intro g hg h2
  obtain ⟨g0, hg0, rfl⟩ := List.mem_map.mp hg
  rw [igv_people_eq (assignTime_people mlen tinc g0) mlen tinc uin fids]
  rw [assignTime_people] at h2
  revert h2
  by_cases hf : fidsTruthy fids = true
  · intro h2
    rw [fids_eq_of_truthy hf]
    refine run_greedy_forall (Q := fun g =>
      is_group_valid g mlen tinc uin (some (fidsList fids)) = true)
      (fun hff => by rw [hf] at hff; cases hff)
      (fun hff => by rw [hf] at hff; cases hff)
      (fun _ n f p hv => ?_) (fun _ g p hlt hv => ?_) g0 hg0
    · show is_group_valid (newFacGroup n f p) mlen tinc uin
        (some (fidsList fids)) = true
      exact igv_transfer rfl hv
    · show is_group_valid (addToGroup g p) mlen tinc uin
        (some (fidsList fids)) = true
      exact igv_transfer rfl hv
  · intro h2
    rw [Bool.not_eq_true] at hf
    rw [igv_falsy hf]
    refine run_greedy_forall (Q := fun g => 2 ≤ g.people.length →
      is_group_valid g mlen tinc uin none = true)
      (fun _ n p h2' => ?_) (fun _ g p hlt hv h2' => ?_)
      (fun hft => by rw [hf] at hft; cases hft)
      (fun hft => by rw [hf] at hft; cases hft) g0 hg0 h2
    · exact absurd h2' (by simp [newSoloGroup])
    · show is_group_valid (addToGroup g p) mlen tinc uin none = true
      exact igv_transfer rfl hv

/-- C1 (witness): a concrete two-person run whose returned group is checked
valid by the amended theorem. -/
theorem C1_witness :
    is_group_valid ⟨"group-0", "Group 1", [exA, exB], none, some (0, 30)⟩
      30 30 true none = true := by
  refine C1_amended [exA, exB] 30 2 8 1 30 0 none none true zeroSortOracle
    zeroPickOracle [⟨"group-0", "Group 1", [exA, exB], none, some (0, 30)⟩]
    (by decide) _ ?_ (by decide)
  decide

theorem findMovable_spec {mlen tinc : Nat} {uin : Bool} {tgt : List Person} :
    ∀ {src : List Person} {pr : List Person × Person},
      findMovable mlen tinc uin tgt src = some pr →
      List.Sublist pr.1 src ∧ List.Perm src (pr.2 :: pr.1) ∧
        is_group_valid (testGroup (tgt ++ [pr.2])) mlen tinc uin none = true := by
  intro src
  induction src with
  | nil => intro pr h; cases h
  | cons p ps ih =>
    intro pr h
    rw [findMovable] at h
    split at h
    · rw [Option.some_inj] at h
      subst h
      rename_i hc
      exact ⟨List.sublist_cons_self p ps, List.Perm.refl _, hc⟩
    · cases hrec : findMovable mlen tinc uin tgt ps with
      | none => rw [hrec] at h; cases h
      | some pr' =>
        rw [hrec] at h
        rw [Option.some_inj] at h
        subst h
        obtain ⟨hs, hp, hv⟩ := ih hrec
        refine ⟨hs.cons₂ p, ?_, hv⟩
        exact (hp.cons p).trans (List.Perm.swap pr'.2 p pr'.1)

theorem scanTargets_spec {mlen tinc : Nat} {uin : Bool} {groups : List Group}
    {sIdx : Nat} {source : Group} :
    ∀ {k : Nat} {gs' : List Group},
      scanTargets mlen tinc uin groups sIdx source k = some gs' →
      ∃ tIdx target pr, groups[tIdx]? = some target ∧ sIdx < tIdx ∧
        target.people.length < source.people.length ∧
        findMovable mlen tinc uin target.people source.people = some pr ∧
        gs' = (groups.set sIdx { source with people := pr.1 }).set tIdx
          { target with people := target.people ++ [pr.2] } := by
  intro k
  induction k with
  | zero => intro gs' h; cases h
  | succ k ih =>
    intro gs' h
    simp only [scanTargets] at h
    cases htar : groups[sIdx + k + 1]? with
    | none =>
      rw [htar] at h
      dsimp only at h
      exact ih h
    | some target =>
      rw [htar] at h
      dsimp only at h
      by_cases hle : source.people.length ≤ target.people.length
      · rw [if_pos hle] at h
        exact ih h
      · rw [if_neg hle] at h
        cases hM : findMovable mlen tinc uin target.people source.people with
        | none =>
          rw [hM] at h
          dsimp only at h
          exact ih h
        | some pr =>
          rw [hM] at h
          dsimp only at h
          rw [Option.some_inj] at h
          exact ⟨sIdx + k + 1, target, pr, htar, by omega,
            Nat.lt_of_not_le hle, hM, h.symm⟩

theorem scanSources_spec {mlen tinc : Nat} {uin : Bool} {groups : List Group} :
    ∀ {k sIdx : Nat} {gs' : List Group},
      scanSources mlen tinc uin groups k sIdx = some gs' →
      ∃ s source, groups[s]? = some source ∧
        scanTargets mlen tinc uin groups s source
          (groups.length - (s + 1)) = some gs' := by
  intro k
  induction k with
  | zero => intro sIdx gs' h; cases h
  | succ k ih =>
    intro sIdx gs' h
    rw [scanSources] at h
    cases hS : groups[sIdx]? with
    | none =>
      rw [hS] at h
      exact absurd h (by simp)
    | some source =>
      rw [hS] at h
      dsimp only at h
      cases hT : scanTargets mlen tinc uin groups sIdx source
          (groups.length - (sIdx + 1)) with
      | none =>
        rw [hT] at h
        dsimp only at h
        exact ih h
      | some gs2 =>
        rw [hT] at h
        dsimp only at h
        rw [Option.some_inj] at h
        subst h
        exact ⟨sIdx, source, hS, hT⟩

theorem igv_none_intro {g : Group} {mlen tinc : Nat} {uin : Bool}
    (h : g.people = [] ∨ valid_people g.people mlen tinc uin = true) :
    is_group_valid g mlen tinc uin none = true :=
  igv_intro (h.imp id fun hv => ⟨fun htr => absurd htr (by decide), hv⟩)

theorem scanSources_valid {mlen tinc : Nat} {uin : Bool} {groups : List Group}
    {k sIdx : Nat} {gs' : List Group}
    (h : scanSources mlen tinc uin groups k sIdx = some gs')
    (hv : ∀ g ∈ groups, is_group_valid g mlen tinc uin none = true) :
    ∀ g ∈ gs', is_group_valid g mlen tinc uin none = true := by
  obtain ⟨s, source, hsrc, hT⟩ := scanSources_spec h
  obtain ⟨t, target, pr, hTgt, hst, hlt, hM, rfl⟩ := scanTargets_spec hT
  obtain ⟨hsub, hperm, hmv⟩ := findMovable_spec hM
  intro g hg
  rcases List.mem_or_eq_of_mem_set hg with hg | rfl
  · rcases List.mem_or_eq_of_mem_set hg with hg | rfl
    · exact hv g hg
    · refine igv_none_intro ?_
      rcases hrest : pr.1 with - | ⟨x, xs⟩
      · exact Or.inl rfl
      · refine Or.inr ?_
        have hne : source.people ≠ [] := by
          intro hnil
          rw [hnil] at hM
          cases hM
        have hvp := (igv_elim (hv source (List.getElem?_mem hsrc)) hne).2
        rw [← hrest]
        exact valid_people_sublist hsub hvp
  · refine igv_none_intro (Or.inr ?_)
    have hne' : target.people ++ [pr.2] ≠ [] := by simp
    exact (igv_elim hmv hne').2

theorem scanSources_sizes {mlen tinc : Nat} {uin : Bool} {groups : List Group}
    {k sIdx : Nat} {gs' : List Group} {M : Nat}
    (h : scanSources mlen tinc uin groups k sIdx = some gs')
    (hM : ∀ g ∈ groups, g.people.length ≤ M) :
    ∀ g ∈ gs', g.people.length ≤ M := by
  obtain ⟨s, source, hsrc, hT⟩ := scanSources_spec h
  obtain ⟨t, target, pr, hTgt, hst, hlt, hMv, rfl⟩ := scanTargets_spec hT
  obtain ⟨hsub, -, -⟩ := findMovable_spec hMv
  intro g hg
  rcases List.mem_or_eq_of_mem_set hg with hg | rfl
  · rcases List.mem_or_eq_of_mem_set hg with hg | rfl
    · exact hM g hg
    · exact le_trans hsub.length_le (hM source (List.getElem?_mem hsrc))
  · have h1 : source.people.length ≤ M := hM source (List.getElem?_mem hsrc)
    dsimp only
    simp only [List.length_append, List.length_cons, List.length_nil]
    omega

theorem scanSources_members {mlen tinc : Nat} {uin : Bool} {groups : List Group}
    {k sIdx : Nat} {gs' : List Group}
    (h : scanSources mlen tinc uin groups k sIdx = some gs') :
    (allMembers gs' : Multiset Person) = (allMembers groups : Multiset Person) := by
  obtain ⟨s, source, hsrc, hT⟩ := scanSources_spec h
  obtain ⟨t, target, pr, hTgt, hst, hlt, hMv, rfl⟩ := scanTargets_spec hT
  obtain ⟨-, hperm, -⟩ := findMovable_spec hMv
  have hTgt2 : (groups.set s { source with people := pr.1 })[t]? = some target := by
    rw [List.getElem?_set_ne (Nat.ne_of_lt hst)]
    exact hTgt
  have e1 := allMembers_set (a := { source with people := pr.1 }) hsrc
  have e2 := allMembers_set
    (a := { target with people := target.people ++ [pr.2] }) hTgt2
  dsimp only at e1 e2
  have eSp : (source.people : Multiset Person) = {pr.2} + (pr.1 : Multiset Person) := by
    rw [Multiset.coe_eq_coe.mpr hperm, Multiset.singleton_add]
    exact (Multiset.cons_coe _ _).symm
  have e2' : (allMembers ((groups.set s { source with people := pr.1 }).set t
      { target with people := target.people ++ [pr.2] }) : Multiset Person) =
      (allMembers (groups.set s { source with people := pr.1 }) : Multiset Person)
        + {pr.2} := by
    refine add_right_cancel (b := (target.people : Multiset Person)) ?_
    rw [e2, ← Multiset.coe_add, Multiset.coe_singleton]
    abel
  rw [e2']
  refine add_right_cancel (b := (pr.1 : Multiset Person)) ?_
  rw [add_assoc, ← eSp, e1]

theorem sortGroupsDesc_perm (gs : List Group) :
    List.Perm (sortGroupsDesc gs) gs :=
  List.perm_insertionSort sizeGE gs

theorem balanceGo_valid {mlen tinc : Nat} {uin : Bool} :
    ∀ (fuel : Nat) (gs : List Group) (c : Nat),
      (∀ g ∈ gs, is_group_valid g mlen tinc uin none = true) →
      ∀ g ∈ (balanceGo mlen tinc uin fuel gs c).1,
        is_group_valid g mlen tinc uin none = true := by
  intro fuel
  induction fuel with
  | zero =>
    intro gs c h
    rw [balanceGo]
    exact h
  | succ fuel ih =>
    intro gs c h
    have hsorted : ∀ g ∈ sortGroupsDesc gs,
        is_group_valid g mlen tinc uin none = true :=
      fun g hg => h g ((sortGroupsDesc_perm gs).subset hg)
    rw [balanceGo]
    cases hS : sortGroupsDesc gs with
    | nil =>
      intro g hg
      cases hg
    | cons hd tl =>
      rw [hS] at hsorted
      dsimp only
      split
      · exact hsorted
      · cases hScan : scanSources mlen tinc uin (hd :: tl) (hd :: tl).length 0 with
        | none => exact hsorted
        | some gs2 => exact ih gs2 (c + 1) (scanSources_valid hScan hsorted)

theorem balanceGo_sizes {mlen tinc : Nat} {uin : Bool} {M : Nat} :
    ∀ (fuel : Nat) (gs : List Group) (c : Nat),
      (∀ g ∈ gs, g.people.length ≤ M) →
      ∀ g ∈ (balanceGo mlen tinc uin fuel gs c).1, g.people.length ≤ M := by
  intro fuel
  induction fuel with
  | zero =>
    intro gs c h
    rw [balanceGo]
    exact h
  | succ fuel ih =>
    intro gs c h
    have hsorted : ∀ g ∈ sortGroupsDesc gs, g.people.length ≤ M :=
      fun g hg => h g ((sortGroupsDesc_perm gs).subset hg)
    rw [balanceGo]
    cases hS : sortGroupsDesc gs with
    | nil =>
      intro g hg
      cases hg
    | cons hd tl =>
      rw [hS] at hsorted
      dsimp only
      split
      · exact hsorted
      · cases hScan : scanSources mlen tinc uin (hd :: tl) (hd :: tl).length 0 with
        | none => exact hsorted
        | some gs2 => exact ih gs2 (c + 1) (scanSources_sizes hScan hsorted)

theorem balanceGo_members {mlen tinc : Nat} {uin : Bool} :
    ∀ (fuel : Nat) (gs : List Group) (c : Nat),
      (allMembers (balanceGo mlen tinc uin fuel gs c).1 : Multiset Person) =
        (allMembers gs : Multiset Person) := by
  intro fuel
  induction fuel with
  | zero =>
    intro gs c
    rw [balanceGo]
  | succ fuel ih =>
    intro gs c
    have hsorted : (allMembers (sortGroupsDesc gs) : Multiset Person) =
        (allMembers gs : Multiset Person) :=
      Multiset.coe_eq_coe.mpr (allMembers_perm (sortGroupsDesc_perm gs))
    rw [balanceGo]
    cases hS : sortGroupsDesc gs with
    | nil =>
      rw [hS] at hsorted
      exact hsorted
    | cons hd tl =>
      rw [hS] at hsorted
      dsimp only
      split
      · exact hsorted
      · cases hScan : scanSources mlen tinc uin (hd :: tl) (hd :: tl).length 0 with
        | none => exact hsorted
        | some gs2 =>
          rw [ih gs2 (c + 1), scanSources_members hScan]
          exact hsorted

theorem balance_cohorts_valid {gs : List Group} {mlen tinc : Nat} {uin : Bool}
    {fuel : Nat} (h : ∀ g ∈ gs, is_group_valid g mlen tinc uin none = true) :
    ∀ g ∈ (balance_cohorts gs mlen tinc uin fuel).1,
      is_group_valid g mlen tinc uin none = true := by
  rw [balance_cohorts]
  split
  · exact h
  · exact balanceGo_valid fuel gs 0 h

theorem balance_cohorts_sizes {gs : List Group} {mlen tinc : Nat} {uin : Bool}
    {fuel M : Nat} (h : ∀ g ∈ gs, g.people.length ≤ M) :
    ∀ g ∈ (balance_cohorts gs mlen tinc uin fuel).1, g.people.length ≤ M := by
  rw [balance_cohorts]
  split
  · exact h
  · exact balanceGo_sizes fuel gs 0 h

theorem balance_cohorts_members (gs : List Group) (mlen tinc : Nat) (uin : Bool)
    (fuel : Nat) :
    (allMembers (balance_cohorts gs mlen tinc uin fuel).1 : Multiset Person) =
      (allMembers gs : Multiset Person) := by
  rw [balance_cohorts]
  split
  · rfl
  · exact balanceGo_members fuel gs 0

/-- C4 (counterexample): `balance_cohorts` validates moves *without*
`facilitator_ids` (it neither receives nor checks them), and the facilitator
sits at index 0 of its group's member list, so it is the first person tried;
here balancing a 4-person and a 2-person group moves facilitator `f1` into
the other facilitator's group, leaving facilitator counts `[0, 2]`. -/
theorem C4_counterexample :
    ((balance_cohorts
        ((run_scheduling [exF1, exF2, exA1, exB1, exC1, exD1] 30 2 8 1 30 0
          (some ["f1", "f2"]) none true zeroSortOracle zeroPickOracle).1.getD [])
        30 30 true 10).1.map fun g => facCount g.people ["f1", "f2"]) =
      [0, 2] := by
  decide

/-- C4 (amended): in facilitator mode (non-empty `facilitator_ids`) every
group returned by `run_scheduling` contains exactly one member whose id is in
`facilitator_ids`; `balance_cohorts` — whose validity probes carry no
facilitator set — need not preserve this. -/
theorem C4_amended (people : List Person) (mlen minp maxp n tinc : Nat)
    (z : ℚ) (fl : List String) (hfl : fl ≠ [])
    (fmc : Option (List (String × Nat))) (uin : Bool) (so : Nat → Nat → ℚ)
    (po : Nat → Nat → ℚ × Nat) (sol : List Group)
    (h : (run_scheduling people mlen minp maxp n tinc z (some fl) fmc uin so
      po).1 = some sol) :
    ∀ g ∈ sol, facCount g.people fl = 1 := by
  have htr : fidsTruthy (some fl) = true := by
    simp [fidsTruthy, hfl]
  obtain ⟨j, rfl⟩ := run_scheduling_provenance h
  intro g hg
  obtain ⟨g0, hg0, rfl⟩ := List.mem_map.mp hg
  rw [assignTime_people]
  refine run_greedy_forall (Q := fun g => facCount g.people fl = 1)
    (fun hff => by rw [htr] at hff; cases hff)
    (fun hff => by rw [htr] at hff; cases hff)
    (fun _ n f p hv => ?_) (fun _ g p hlt hv => ?_) g0 hg0
  · show facCount [f, p] fl = 1
    exact (igv_elim hv (by simp [testGroup])).1 htr
  · show facCount (g.people ++ [p]) fl = 1
    exact (igv_elim hv (by simp [testGroup])).1 htr

/-- C4 (witness): a concrete facilitator-mode run whose returned group is
checked by the amended theorem to contain exactly one facilitator. -/
theorem C4_witness :
    facCount [exF, exA] ["f"] = 1 :=
  C4_amended [exF, exA] 30 1 8 1 30 0 ["f"] (by decide) none true
    zeroSortOracle zeroPickOracle
    [⟨"group-0", "Group 1", [exF, exA], some "f", some (0, 30)⟩] (by decide)
    ⟨"group-0", "Group 1", [exF, exA], some "f", some (0, 30)⟩
    (List.mem_singleton.mpr rfl)

/-- C5 (counterexample): with `min_people = max_people = 1` in facilitator
mode, the new `{facilitator, person}` group is created *without* a
`max_people` check, so the run returns a group of 2 members although
`max_people = 1` (and `1 ≤ min_people ≤ max_people` holds). -/
theorem C5_counterexample :
    ((run_scheduling [exF, exA] 30 1 1 1 30 0 (some ["f"]) none true
        zeroSortOracle zeroPickOracle).1.map fun gs =>
      gs.map fun g => g.people.length) = some [2] := by
  decide

/-- C5 (amended): for configurations with `1 ≤ min_people ≤ max_people` and —
in facilitator mode — `2 ≤ max_people`, no group returned by `run_scheduling`
has more than `max_people` members, and `balance_cohorts` preserves any such
size bound. -/
theorem C5_amended (people : List Person) (mlen minp maxp n tinc : Nat)
    (z : ℚ) (fids : Option (List String)) (fmc : Option (List (String × Nat)))
    (uin : Bool) (so : Nat → Nat → ℚ) (po : Nat → Nat → ℚ × Nat)
    (hmin : 1 ≤ minp) (hminmax : minp ≤ maxp)
    (hfac : fidsTruthy fids = true → 2 ≤ maxp) :
    (∀ sol, (run_scheduling people mlen minp maxp n tinc z fids fmc uin so
        po).1 = some sol → ∀ g ∈ sol, g.people.length ≤ maxp) ∧
    (∀ (gs : List Group) (fuel : Nat), (∀ g ∈ gs, g.people.length ≤ maxp) →
      ∀ g ∈ (balance_cohorts gs mlen tinc uin fuel).1,
        g.people.length ≤ maxp) := by
  constructor
  · intro sol h
    obtain ⟨j, rfl⟩ := run_scheduling_provenance h
    intro g hg
    obtain ⟨g0, hg0, rfl⟩ := List.mem_map.mp hg
    rw [assignTime_people]
    refine run_greedy_forall (Q := fun g => g.people.length ≤ maxp)
      (fun hff n p => ?_) (fun hff g p hlt hv => ?_)
      (fun hft n f p hv => ?_) (fun hft g p hlt hv => ?_) g0 hg0
    · show (newSoloGroup n p).people.length ≤ maxp
      simp only [newSoloGroup, List.length_cons, List.length_nil]
      omega
    · show (addToGroup g p).people.length ≤ maxp
      simp only [addToGroup, List.length_append, List.length_cons,
        List.length_nil]
      omega
    · show (newFacGroup n f p).people.length ≤ maxp
      have h2 := hfac hft
      simp only [newFacGroup, List.length_cons, List.length_nil]
      omega
    · show (addToGroup g p).people.length ≤ maxp
      simp only [addToGroup, List.length_append, List.length_cons,
        List.length_nil]
      omega
  · intro gs fuel h
    exact balance_cohorts_sizes h

/-- C5 (witness): the amended bound instantiated at a concrete two-person
run and its returned group. -/
theorem C5_witness :
    (⟨"group-0", "Group 1", [exA, exB], none, some (0, 30)⟩ : Group).people.length
      ≤ 8 :=
  (C5_amended [exA, exB] 30 2 8 1 30 0 none none true zeroSortOracle
      zeroPickOracle (by decide) (by decide) (fun _ => by decide)).1
    [⟨"group-0", "Group 1", [exA, exB], none, some (0, 30)⟩] (by decide) _
    (List.mem_singleton.mpr rfl)

/-- C6: if every input group passes the validity checker (no facilitator
constraint), then after `balance_cohorts` (any fuel for its `while` loop)
every group still passes it under the same configuration, the multiset of
all members across the groups is unchanged, and hence the total member count
`sum(sizes)` is unchanged. -/
theorem C6_balancer (gs : List Group) (mlen tinc : Nat) (uin : Bool)
    (fuel : Nat)
    (h : ∀ g ∈ gs, is_group_valid g mlen tinc uin none = true) :
    (∀ g ∈ (balance_cohorts gs mlen tinc uin fuel).1,
      is_group_valid g mlen tinc uin none = true) ∧
    (allMembers (balance_cohorts gs mlen tinc uin fuel).1 : Multiset Person) =
      (allMembers gs : Multiset Person) ∧
    totalScore (balance_cohorts gs mlen tinc uin fuel).1 = totalScore gs := by
  refine ⟨balance_cohorts_valid h, balance_cohorts_members .., ?_⟩
  rw [totalScore_eq, totalScore_eq]
  have hc := congrArg Multiset.card (balance_cohorts_members gs mlen tinc uin fuel)
  simpa [Multiset.coe_card] using hc

/-- C6 (witness): the balancer non-regression instantiated at a concrete
pair of valid groups on which a move is actually performed. -/
theorem C6_witness :
    (∀ g ∈ (balance_cohorts [⟨"g1", "G1", [exF1, exA1, exB1, exC1], none, none⟩,
        ⟨"g2", "G2", [exF2, exD1], none, none⟩] 30 30 true 5).1,
      is_group_valid g 30 30 true none = true) ∧
    (allMembers (balance_cohorts [⟨"g1", "G1", [exF1, exA1, exB1, exC1], none, none⟩,
        ⟨"g2", "G2", [exF2, exD1], none, none⟩] 30 30 true 5).1 : Multiset Person) =
      (allMembers [⟨"g1", "G1", [exF1, exA1, exB1, exC1], none, none⟩,
        ⟨"g2", "G2", [exF2, exD1], none, none⟩] : Multiset Person) ∧
    totalScore (balance_cohorts [⟨"g1", "G1", [exF1, exA1, exB1, exC1], none, none⟩,
        ⟨"g2", "G2", [exF2, exD1], none, none⟩] 30 30 true 5).1 =
      totalScore [⟨"g1", "G1", [exF1, exA1, exB1, exC1], none, none⟩,
        ⟨"g2", "G2", [exF2, exD1], none, none⟩] :=
  C6_balancer [⟨"g1", "G1", [exF1, exA1, exB1, exC1], none, none⟩,
    ⟨"g2", "G2", [exF2, exD1], none, none⟩] 30 30 true 5 (by decide)

theorem schedLoopGo_monotone (solf : Nat → List Group) (np : Nat) :
    ∀ (k i : Nat) (st : SchedState),
      st.best_score ≤ (schedLoopGo solf np k i st).1.best_score := by
  intro k
  induction k with
  | zero => intro i st; exact le_refl _
  | succ k ih =>
    intro i st
    simp only [schedLoopGo]
    split
    · rename_i hlt
      split
      · exact le_of_lt hlt
      · exact le_trans (le_of_lt hlt) (ih (i + 1) _)
    · exact ih (i + 1) st

theorem schedLoopGo_first_achiever (solf : Nat → List Group) (np : Nat) :
    ∀ (k i : Nat) (st : SchedState),
      (∃ j, j < i ∧ st.best_solution = some (solf j) ∧
        st.best_score = (totalScore (solf j) : Int) ∧
        st.best_iteration = (j : Int) ∧
        (∀ i', i' < j → totalScore (solf i') < totalScore (solf j)) ∧
        (∀ i', j ≤ i' → i' < i → totalScore (solf i') ≤ totalScore (solf j))) →
      ∃ j, (schedLoopGo solf np k i st).1.best_solution = some (solf j) ∧
        (schedLoopGo solf np k i st).1.best_score = (totalScore (solf j) : Int) ∧
        (schedLoopGo solf np k i st).1.best_iteration = (j : Int) ∧
        ∀ i', i' < j → totalScore (solf i') < totalScore (solf j) := by
  intro k
  induction k with
  | zero =>
    intro i st h
    obtain ⟨j, -, h1, h2, h3, h4, -⟩ := h
    rw [schedLoopGo]
    exact ⟨j, h1, h2, h3, h4⟩
  | succ k ih =>
    intro i st h
    obtain ⟨j, hji, h1, h2, h3, h4, h5⟩ := h
    simp only [schedLoopGo]
    split
    · rename_i hlt
      have hji' : totalScore (solf j) < totalScore (solf i) := by
        rw [h2] at hlt
        exact_mod_cast hlt
      have hstrict : ∀ i', i' < i → totalScore (solf i') < totalScore (solf i) := by
        intro i' hi'
        rcases Nat.lt_or_ge i' j with hc | hc
        · exact lt_trans (h4 i' hc) hji'
        · have := h5 i' hc hi'
          omega
      split
      · exact ⟨i, rfl, rfl, rfl, hstrict⟩
      · refine ih (i + 1) _ ⟨i, by omega, rfl, rfl, rfl, hstrict, ?_⟩
        intro i' hge hlt'
        have he : i' = i := by omega
        rw [he]
    · rename_i hnlt
      refine ih (i + 1) st ⟨j, by omega, h1, h2, h3, h4, ?_⟩
      intro i' hji' hi'
      rcases Nat.lt_or_ge i' i with hc | hc
      · exact h5 i' hji' hc
      · have he : i' = i := by omega
        subst he
        rw [h2] at hnlt
        exact_mod_cast not_lt.mp hnlt

theorem schedLoopGo_from_init (solf : Nat → List Group) (np k : Nat) :
    ∃ j, (schedLoopGo solf np (k + 1) 0 schedInit).1.best_solution = some (solf j) ∧
      (schedLoopGo solf np (k + 1) 0 schedInit).1.best_score =
        (totalScore (solf j) : Int) ∧
      (schedLoopGo solf np (k + 1) 0 schedInit).1.best_iteration = (j : Int) ∧
      ∀ i', i' < j → totalScore (solf i') < totalScore (solf j) := by
  simp only [schedLoopGo]
  have hlt : schedInit.best_score < ((totalScore (solf 0) : Nat) : Int) := by
    show (-1 : Int) < _
    omega
  rw [if_pos hlt]
  split
  · exact ⟨0, rfl, rfl, rfl, fun i' h => absurd h (Nat.not_lt_zero _)⟩
  · refine schedLoopGo_first_achiever solf np k 1 _
      ⟨0, by omega, rfl, rfl, rfl, fun i' h => absurd h (Nat.not_lt_zero _), ?_⟩
    intro i' hge hlt'
    have he : i' = 0 := by omega
    rw [he]

theorem totalScore_map_assignTime (mlen tinc : Nat) (gs : List Group) :
    totalScore (gs.map (assignTime mlen tinc)) = totalScore gs := by
  simp only [totalScore, List.map_map]
  congr 1
  apply List.map_congr_left
  intro g _
  show (assignTime mlen tinc g).people.length = _
  rw [assignTime_people]

/-- C7: across the optimizer loop `best_score` never decreases, and (for any
run of at least one iteration) the returned `best_score` is the score of the
returned `best_solution` (`sum(len(g.people))`), `best_iteration` names the
iteration that produced it, that iteration is the *first* to achieve the
final score, and every earlier iteration scored strictly less — so a later
iteration with an equal score never replaces the retained solution. -/
theorem C7_optimizer :
    (∀ (solf : Nat → List Group) (np k i : Nat) (st : SchedState),
      st.best_score ≤ (schedLoopGo solf np k i st).1.best_score) ∧
    (∀ (people : List Person) (mlen minp maxp n tinc : Nat) (z : ℚ)
      (fids : Option (List String)) (fmc : Option (List (String × Nat)))
      (uin : Bool) (so : Nat → Nat → ℚ) (po : Nat → Nat → ℚ × Nat),
      1 ≤ n →
      ∃ j,
        (run_scheduling people mlen minp maxp n tinc z fids fmc uin so po).1 =
          some ((iterationSolution people mlen minp maxp tinc z fids fmc uin so
            po j).map (assignTime mlen tinc)) ∧
        (run_scheduling people mlen minp maxp n tinc z fids fmc uin so po).2.1 =
          (totalScore (iterationSolution people mlen minp maxp tinc z fids fmc
            uin so po j) : Int) ∧
        (run_scheduling people mlen minp maxp n tinc z fids fmc uin so po).2.1 =
          (totalScore ((iterationSolution people mlen minp maxp tinc z fids fmc
            uin so po j).map (assignTime mlen tinc)) : Int) ∧
        (run_scheduling people mlen minp maxp n tinc z fids fmc uin so
          po).2.2.1 = (j : Int) ∧
        ∀ i, i < j →
          totalScore (iterationSolution people mlen minp maxp tinc z fids fmc
            uin so po i) <
          totalScore (iterationSolution people mlen minp maxp tinc z fids fmc
            uin so po j)) := by
  constructor
  · exact fun solf np k i st => schedLoopGo_monotone solf np k i st
  · intro people mlen minp maxp n tinc z fids fmc uin so po hn
    obtain ⟨k, rfl⟩ : ∃ k, n = k + 1 := ⟨n - 1, by omega⟩
    obtain ⟨j, h1, h2, h3, h4⟩ := schedLoopGo_from_init
      (iterationSolution people mlen minp maxp tinc z fids fmc uin so po)
      people.length k
    refine ⟨j, ?_, ?_, ?_, ?_, h4⟩
    · show ((schedLoopGo _ _ (k + 1) 0 schedInit).1.best_solution.map
        fun gs => gs.map (assignTime mlen tinc)) = _
      rw [h1]
      rfl
    · exact h2
    · rw [totalScore_map_assignTime]
      exact h2
    · exact h3

/-- C7 (witness): the loop-invariant statement instantiated at a concrete
two-person run (one iteration). -/
theorem C7_witness :
    ∃ j,
      (run_scheduling [exA, exB] 30 2 8 1 30 0 none none true zeroSortOracle
        zeroPickOracle).1 =
        some ((iterationSolution [exA, exB] 30 2 8 30 0 none none true
          zeroSortOracle zeroPickOracle j).map (assignTime 30 30)) ∧
      (run_scheduling [exA, exB] 30 2 8 1 30 0 none none true zeroSortOracle
        zeroPickOracle).2.1 =
        (totalScore (iterationSolution [exA, exB] 30 2 8 30 0 none none true
          zeroSortOracle zeroPickOracle j) : Int) ∧
      (run_scheduling [exA, exB] 30 2 8 1 30 0 none none true zeroSortOracle
        zeroPickOracle).2.1 =
        (totalScore ((iterationSolution [exA, exB] 30 2 8 30 0 none none true
          zeroSortOracle zeroPickOracle j).map (assignTime 30 30)) : Int) ∧
      (run_scheduling [exA, exB] 30 2 8 1 30 0 none none true zeroSortOracle
        zeroPickOracle).2.2.1 = (j : Int) ∧
      ∀ i, i < j →
        totalScore (iterationSolution [exA, exB] 30 2 8 30 0 none none true
          zeroSortOracle zeroPickOracle i) <
        totalScore (iterationSolution [exA, exB] 30 2 8 30 0 none none true
          zeroSortOracle zeroPickOracle j) :=
  C7_optimizer.2 [exA, exB] 30 2 8 1 30 0 none none true zeroSortOracle
    zeroPickOracle (by decide)

/-- C9: for an empty people list and any `num_iterations ≥ 1`,
`run_scheduling` returns normally with a degenerate result: zero groups,
`best_score = 0` (reached in iteration 0, after which the full-placement
early exit fires, so exactly 1 iteration runs). -/
theorem C9_empty_people (mlen minp maxp n tinc : Nat) (z : ℚ)
    (fids : Option (List String)) (fmc : Option (List (String × Nat)))
    (uin : Bool) (so : Nat → Nat → ℚ) (po : Nat → Nat → ℚ × Nat)
    (hn : 1 ≤ n) :
    run_scheduling [] mlen minp maxp n tinc z fids fmc uin so po =
      (some [], 0, 0, 1) := by
  obtain ⟨k, rfl⟩ : ∃ k, n = k + 1 := ⟨n - 1, by omega⟩
  have hiter : iterationSolution [] mlen minp maxp tinc z fids fmc uin so po =
      fun _ => [] := by
    funext i
    rw [iterationSolution, run_greedy_iteration]
    by_cases hf : fidsTruthy fids = true
    · rw [if_pos hf]
      rfl
    · rw [Bool.not_eq_true] at hf
      rw [if_neg (by rw [hf]; exact Bool.false_ne_true)]
      rfl
  rw [run_scheduling, hiter]
  simp only [schedLoopGo]
  norm_num [schedInit, totalScore]

/-- C9 (witness): the empty-input theorem at the default configuration. -/
theorem C9_witness :
    run_scheduling [] 60 4 8 1000 30 (1 / 2) none none true zeroSortOracle
      zeroPickOracle = (some [], 0, 0, 1) :=
  C9_empty_people 60 4 8 1000 30 (1 / 2) none none true zeroSortOracle
    zeroPickOracle (by decide)

theorem noiseFactor_zero (r : ℚ) : noiseFactor 0 r = 1 := by
  unfold noiseFactor
  ring

theorem enumFrom_map_snd {α β : Type _} (f : α → β) :
    ∀ (l : List α) (i : Nat), (enumFrom i l).map (fun ip => f ip.2) = l.map f := by
  intro l
  induction l with
  | nil => intro i; rfl
  | cons x xs ih =>
    intro i
    simp only [enumFrom, List.map_cons, List.map]
    rw [ih (i + 1)]

theorem sortByNoisyKey_zero (rs : Nat → ℚ) (people : List Person) :
    sortByNoisyKey 0 rs people =
      ((people.map fun p => ((calculate_total_available_time p : ℚ), p)).insertionSort
        keyLE).map Prod.snd := by
  unfold sortByNoisyKey
  congr 1
  have he : ((enumFrom 0 people).map fun ip =>
      ((calculate_total_available_time ip.2 : ℚ) * noiseFactor 0 (rs ip.1), ip.2)) =
      (enumFrom 0 people).map fun ip =>
        ((calculate_total_available_time ip.2 : ℚ), ip.2) := by
    apply List.map_congr_left
    intro ip _
    rw [noiseFactor_zero, mul_one]
  rw [he, enumFrom_map_snd (fun p => ((calculate_total_available_time p : ℚ), p))]

theorem pickPair_zero (d : ℚ × Nat) (c : Nat × Group) (cs : List (Nat × Group)) :
    pickPair 0 d (c :: cs) = c := by
  simp [pickPair]

theorem greedyStepNF_zero (mlen maxp tinc : Nat) (uin : Bool) (gs : List Group)
    (p : Person) (d d' : ℚ × Nat) :
    greedyStepNF 0 mlen maxp tinc uin gs (p, d) =
      greedyStepNF 0 mlen maxp tinc uin gs (p, d') := by
  rw [greedyStepNF, greedyStepNF]
  cases hc : candPairs mlen maxp tinc uin none p gs with
  | nil => rfl
  | cons c cs =>
    dsimp only
    rw [pickPair_zero, pickPair_zero]

theorem foldNF_zero_draws (mlen maxp tinc : Nat) (uin : Bool)
    (ds ds' : Nat → ℚ × Nat) :
    ∀ (order : List Person) (i : Nat) (gs : List Group),
      ((enumFrom i order).map fun ip => (ip.2, ds ip.1)).foldl
        (greedyStepNF 0 mlen maxp tinc uin) gs =
      ((enumFrom i order).map fun ip => (ip.2, ds' ip.1)).foldl
        (greedyStepNF 0 mlen maxp tinc uin) gs := by
  intro order
  induction order with
  | nil => intro i gs; rfl
  | cons p ps ih =>
    intro i gs
    simp only [enumFrom, List.map_cons, List.foldl_cons]
    rw [greedyStepNF_zero mlen maxp tinc uin gs p (ds i) (ds' i)]
    exact ih (i + 1) _

/-- C8: with `randomness = 0` in non-facilitator mode, `run_greedy_iteration`
is a deterministic function of its inputs — any two runs on the same people
and configuration return identical group lists regardless of the sort-jitter
and placement draws; the processing order is (weakly) ascending by total
available minutes and is a permutation of the input people; and the
placement choice always takes the first — lowest-index — valid candidate
group. -/
theorem C8_determinism :
    (∀ (people : List Person) (mlen minp maxp tinc : Nat)
      (fmc : Option (List (String × Nat))) (uin : Bool)
      (rs rs' : Nat → ℚ) (ds ds' : Nat → ℚ × Nat),
      run_greedy_iteration people mlen minp maxp tinc 0 none fmc uin rs ds =
        run_greedy_iteration people mlen minp maxp tinc 0 none fmc uin rs' ds') ∧
    (∀ (people : List Person) (rs : Nat → ℚ),
      List.Pairwise (fun a b => calculate_total_available_time a ≤
        calculate_total_available_time b) (sortByNoisyKey 0 rs people) ∧
      List.Perm (sortByNoisyKey 0 rs people) people) ∧
    (∀ (d : ℚ × Nat) (c : Nat × Group) (cs : List (Nat × Group)),
      pickPair 0 d (c :: cs) = c) := by
  refine ⟨?_, ?_, fun d c cs => pickPair_zero d c cs⟩
  · intro people mlen minp maxp tinc fmc uin rs rs' ds ds'
    rw [run_greedy_iteration, run_greedy_iteration]
    rw [if_neg (by exact Bool.false_ne_true), if_neg (by exact Bool.false_ne_true)]
    dsimp only
    rw [sortByNoisyKey_zero rs, sortByNoisyKey_zero rs']
    congr 1
    exact foldNF_zero_draws mlen maxp tinc uin ds ds' _ 0 []
  · intro people rs
    constructor
    · rw [sortByNoisyKey_zero]
      rw [List.pairwise_map]
      have hsorted := List.sorted_insertionSort keyLE
        (people.map fun p => ((calculate_total_available_time p : ℚ), p))
      have hmemkey : ∀ a ∈ (people.map fun p =>
          ((calculate_total_available_time p : ℚ), p)).insertionSort keyLE,
          a.1 = (calculate_total_available_time a.2 : ℚ) := by
        intro a ha
        have := (List.perm_insertionSort keyLE _).subset ha
        obtain ⟨p, -, rfl⟩ := List.mem_map.mp this
        rfl
      refine List.Pairwise.imp_of_mem ?_ hsorted
      intro a b ha hb hab
      have h1 := hmemkey a ha
      have h2 := hmemkey b hb
      have hle : a.1 ≤ b.1 := hab
      rw [h1, h2] at hle
      exact_mod_cast hle
    · rw [sortByNoisyKey_zero]
      have hperm := (List.perm_insertionSort keyLE
        (people.map fun p => ((calculate_total_available_time p : ℚ), p))).map
        Prod.snd
      refine hperm.trans ?_
      rw [List.map_map]
      have hid : (Prod.snd ∘ fun p : Person =>
          ((calculate_total_available_time p : ℚ), p)) = id := rfl
      rw [hid, List.map_id]

theorem idCount_countP (s : String) (l : List Person) :
    idCount s l = List.countP (fun p => p.id == s) l :=
  (List.countP_eq_length_filter _ _).symm

theorem idCount_set {gs : List Group} {i : Nat} {x a : Group} {s : String}
    (h : gs[i]? = some x) :
    idCount s (allMembers (gs.set i a)) + idCount s x.people =
      idCount s (allMembers gs) + idCount s a.people := by
  have hm := allMembers_set (a := a) h
  rw [Multiset.coe_add, Multiset.coe_add] at hm
  have hp := Multiset.coe_eq_coe.mp hm
  have hc := hp.countP_eq (fun p => p.id == s)
  rw [List.countP_append, List.countP_append] at hc
  simpa [idCount_countP] using hc

theorem idCount_single (s : String) (x : Person) :
    idCount s [x] = if x.id == s then 1 else 0 := by
  simp only [idCount, List.filter]
  cases hx : x.id == s <;> simp

theorem greedyStepNF_idCount (z : ℚ) (mlen maxp tinc : Nat) (uin : Bool)
    (gs : List Group) (pd : Person × ℚ × Nat) (s : String) :
    idCount s (allMembers (greedyStepNF z mlen maxp tinc uin gs pd)) =
      idCount s (allMembers gs) + idCount s [pd.1] := by
  rw [greedyStepNF]
  cases hc : candPairs mlen maxp tinc uin none pd.1 gs with
  | nil =>
    dsimp only
    rw [allMembers_append, idCount_append]
    congr 1
  | cons c cs =>
    dsimp only
    have hsub : pickPair z pd.2 (c :: cs) ∈
        candPairs mlen maxp tinc uin none pd.1 gs := by
      rw [hc]
      exact pickPair_mem ..
    obtain ⟨hget, -, -⟩ := candPairs_mem hsub
    have hset := idCount_set
      (a := addToGroup (pickPair z pd.2 (c :: cs)).2 pd.1) (s := s) hget
    rw [addToGroup_people, idCount_append] at hset
    omega

theorem tryNewFacGroup_mem {mlen tinc : Nat} {uin : Bool} {fl : List String}
    {fmc : Option (List (String × Nat))} {asg : String → Nat} {person : Person} :
    ∀ {fs : List Person} {f : Person},
      tryNewFacGroup mlen tinc uin fl fmc asg person fs = some f → f ∈ fs := by
  intro fs
  induction fs with
  | nil => intro f h; cases h
  | cons x xs ih =>
    intro f h
    rw [tryNewFacGroup] at h
    split at h
    · rw [Option.some_inj] at h
      subst h
      exact List.mem_cons_self ..
    · exact List.mem_cons_of_mem x (ih h)

theorem greedyStepF_idCount (z : ℚ) (mlen maxp tinc : Nat) (uin : Bool)
    (fl : List String) (fmc : Option (List (String × Nat)))
    (facilitators : List Person) (st : List Group × (String → Nat))
    (pd : Person × ℚ × Nat) (s : String)
    (hfs : ∀ f ∈ facilitators, ¬ f.id = s) :
    idCount s (allMembers (greedyStepF z mlen maxp tinc uin fl fmc facilitators
      st pd).1) ≤ idCount s (allMembers st.1) + idCount s [pd.1] := by
  rw [greedyStepF]
  cases hc : candPairs mlen maxp tinc uin (some fl) pd.1 st.1 with
  | cons c cs =>
    dsimp only
    have hsub : pickPair z pd.2 (c :: cs) ∈
        candPairs mlen maxp tinc uin (some fl) pd.1 st.1 := by
      rw [hc]
      exact pickPair_mem ..
    obtain ⟨hget, -, -⟩ := candPairs_mem hsub
    have hset := idCount_set
      (a := addToGroup (pickPair z pd.2 (c :: cs)).2 pd.1) (s := s) hget
    rw [addToGroup_people, idCount_append] at hset
    omega
  | nil =>
    cases htry : tryNewFacGroup mlen tinc uin fl fmc st.2 pd.1 facilitators with
    | none =>
      dsimp only
      exact Nat.le_add_right _ _
    | some f =>
      dsimp only
      rw [allMembers_append, idCount_append]
      have hf0 : idCount s (allMembers [newFacGroup st.1.length f pd.1]) =
          idCount s [pd.1] := by
        have hne : ¬ f.id = s := hfs f (tryNewFacGroup_mem htry)
        simp only [allMembers, newFacGroup, List.append_nil]
        show idCount s ([f] ++ [pd.1]) = idCount s [pd.1]
        rw [idCount_append, idCount_single]
        simp [hne]
      omega

theorem foldNF_idCount (z : ℚ) (mlen maxp tinc : Nat) (uin : Bool) (s : String) :
    ∀ (l : List (Person × ℚ × Nat)) (gs : List Group),
      idCount s (allMembers (l.foldl (greedyStepNF z mlen maxp tinc uin) gs)) =
        idCount s (allMembers gs) + idCount s (l.map fun pd => pd.1) := by
  intro l
  induction l with
  | nil => intro gs; simp [idCount]
  | cons pd l ih =>
    intro gs
    rw [List.foldl_cons, ih, greedyStepNF_idCount]
    have hm : idCount s ((pd :: l).map fun pd => pd.1) =
        idCount s [pd.1] + idCount s (l.map fun pd => pd.1) := by
      rw [List.map_cons, show (pd.1 :: l.map fun pd => pd.1) =
        [pd.1] ++ l.map fun pd => pd.1 from rfl, idCount_append]
    omega

theorem foldF_idCount (z : ℚ) (mlen maxp tinc : Nat) (uin : Bool)
    (fl : List String) (fmc : Option (List (String × Nat)))
    (facilitators : List Person) (s : String)
    (hfs : ∀ f ∈ facilitators, ¬ f.id = s) :
    ∀ (l : List (Person × ℚ × Nat)) (st : List Group × (String → Nat)),
      idCount s (allMembers (l.foldl (greedyStepF z mlen maxp tinc uin fl fmc
        facilitators) st).1) ≤
        idCount s (allMembers st.1) + idCount s (l.map fun pd => pd.1) := by
  intro l
  induction l with
  | nil => intro st; simp [idCount]
  | cons pd l ih =>
    intro st
    rw [List.foldl_cons]
    have h1 := ih (greedyStepF z mlen maxp tinc uin fl fmc facilitators st pd)
    have h2 := greedyStepF_idCount z mlen maxp tinc uin fl fmc facilitators st
      pd s hfs
    have hm : idCount s ((pd :: l).map fun pd => pd.1) =
        idCount s [pd.1] + idCount s (l.map fun pd => pd.1) := by
      rw [List.map_cons, show (pd.1 :: l.map fun pd => pd.1) =
        [pd.1] ++ l.map fun pd => pd.1 from rfl, idCount_append]
    omega

theorem sortByNoisyKey_perm (z : ℚ) (rs : Nat → ℚ) (people : List Person) :
    List.Perm (sortByNoisyKey z rs people) people := by
  unfold sortByNoisyKey
  have h1 := (List.perm_insertionSort keyLE ((enumFrom 0 people).map fun ip =>
    ((calculate_total_available_time ip.2 : ℚ) * noiseFactor z (rs ip.1),
      ip.2))).map Prod.snd
  refine h1.trans ?_
  rw [List.map_map]
  have hid : (Prod.snd ∘ fun ip : Nat × Person =>
      ((calculate_total_available_time ip.2 : ℚ) * noiseFactor z (rs ip.1),
        ip.2)) = fun ip => ip.2 := rfl
  rw [hid, enumFrom_map_snd (fun p => p)]
  simp

theorem countP_id_le_one {people : List Person} {s : String}
    (hnd : (people.map Person.id).Nodup) :
    List.countP (fun p => p.id == s) people ≤ 1 := by
  induction people with
  | nil => simp
  | cons p ps ih =>
    rw [List.map_cons, List.nodup_cons] at hnd
    rw [List.countP_cons]
    cases hps : p.id == s with
    | false => simpa using ih hnd.2
    | true =>
      have h0 : List.countP (fun q => q.id == s) ps = 0 := by
        rw [List.countP_eq_zero]
        intro q hq hqs
        rw [beq_iff_eq] at hps hqs
        exact hnd.1 (List.mem_map.mpr ⟨q, hq, by rw [hqs, hps]⟩)
      rw [h0]
      simp

theorem idCount_perm {s : String} {l l' : List Person}
    (h : List.Perm l l') : idCount s l = idCount s l' := by
  rw [idCount_countP, idCount_countP]
  exact h.countP_eq _

theorem idCount_le_one {people : List Person} {s : String}
    (hnd : (people.map Person.id).Nodup) : idCount s people ≤ 1 := by
  rw [idCount_countP]
  exact countP_id_le_one hnd

theorem attachDraws_map_fst (ds : Nat → ℚ × Nat) (order : List Person) :
    (attachDraws ds order).map (fun pd => pd.1) = order := by
  unfold attachDraws
  rw [List.map_map]
  have hid : ((fun pd : Person × ℚ × Nat => pd.1) ∘ fun ip : Nat × Person =>
      (ip.2, ds ip.1)) = fun ip => ip.2 := rfl
  rw [hid, enumFrom_map_snd (fun p => p)]
  simp

/-- C10: in every group list returned by `run_greedy_iteration`, each person
whose id is not in `facilitator_ids` appears at most once across all groups
(so in at most one group, and at most once within it), and `balance_cohorts`
preserves the exact occurrence count of every id. -/
theorem C10_no_duplicates (people : List Person) (mlen minp maxp tinc : Nat)
    (z : ℚ) (fids : Option (List String)) (fmc : Option (List (String × Nat)))
    (uin : Bool) (rs : Nat → ℚ) (ds : Nat → ℚ × Nat) (s : String)
    (hnd : (people.map Person.id).Nodup) (hs : s ∉ fidsList fids) :
    idCount s (allMembers (run_greedy_iteration people mlen minp maxp tinc z
      fids fmc uin rs ds)) ≤ 1 ∧
    ∀ (gs : List Group) (fuel : Nat),
      idCount s (allMembers (balance_cohorts gs mlen tinc uin fuel).1) =
        idCount s (allMembers gs) := by
  constructor
  · rw [run_greedy_iteration]
    by_cases hf : fidsTruthy fids = true
    · rw [if_pos hf]
      dsimp only
      refine le_trans (idCount_le_of_sublist
        (allMembers_sublist (List.filter_sublist _))) ?_
      have hfs : ∀ f ∈ people.filter (fun p => (fidsList fids).contains p.id),
          ¬ f.id = s := by
        intro f hf' he
        have hc := (List.mem_filter.mp hf').2
        rw [he] at hc
        exact hs (by simpa using hc)
      refine le_trans (foldF_idCount z mlen maxp tinc uin (fidsList fids) fmc _
        s hfs _ (([], fun _ => 0) : List Group × (String → Nat))) ?_
      rw [attachDraws_map_fst]
      have h0 : idCount s (allMembers
          ((([], fun _ => 0) : List Group × (String → Nat))).1) = 0 := by
        simp [allMembers, idCount]
      rw [h0, Nat.zero_add]
      rw [idCount_perm (sortByNoisyKey_perm z rs _)]
      exact le_trans (idCount_le_of_sublist (List.filter_sublist _))
        (idCount_le_one hnd)
    · rw [Bool.not_eq_true] at hf
      rw [if_neg (by rw [hf]; exact Bool.false_ne_true)]
      dsimp only
      refine le_trans (idCount_le_of_sublist
        (allMembers_sublist (List.filter_sublist _))) ?_
      rw [foldNF_idCount, attachDraws_map_fst]
      have h0 : idCount s (allMembers []) = 0 := by
        simp [allMembers, idCount]
      rw [h0, Nat.zero_add]
      rw [idCount_perm (sortByNoisyKey_perm z rs _)]
      exact idCount_le_one hnd
  · intro gs fuel
    have hperm := Multiset.coe_eq_coe.mp
      (balance_cohorts_members gs mlen tinc uin fuel)
    exact idCount_perm hperm

/-- C10 (witness): the no-duplicate bound at a concrete run, together with
the balancer's exact count preservation. -/
theorem C10_witness :
    idCount "a" (allMembers (run_greedy_iteration [exA, exB] 30 2 8 30 0 none
      none true (fun _ => 0) (fun _ => (0, 0)))) ≤ 1 ∧
    ∀ (gs : List Group) (fuel : Nat),
      idCount "a" (allMembers (balance_cohorts gs 30 30 true fuel).1) =
        idCount "a" (allMembers gs) :=
  C10_no_duplicates [exA, exB] 30 2 8 30 0 none none true (fun _ => 0)
    (fun _ => (0, 0)) "a" (by decide) (by decide)

end Scheduler
